import Mathlib

/-!
Shallow embedding of `src/lib.rs` (tabulating polynomial values, Knuth TAOCP
section 4.6.4).  The Rust code is generic over a type `C` with ring-like
`Add`/`Sub`/`Mul` operations; we embed it over a commutative ring `R`.
Rust panics (the `assert!` in `evaluate`, and the out-of-bounds indexing
`state[0]` in `next` on an empty state) are modelled by `Option`, with `none`
standing for a panic.  The in-place loops over `Vec<C>` are modelled as folds
of `List.set` updates over the same index ranges the Rust loops traverse.
-/

variable {R : Type} [CommRing R]

/-- Embedding of `fn evaluate` (Horner's method, `src/lib.rs` lines 67-83):
the `assert!(coefficients.len() > 0)` panic is `none`; a single coefficient is
returned directly; otherwise the code folds over the reversed coefficient list
skipping its first element (`iter().rev().skip(1)`), seeded with the last
coefficient, with step `sum * input + coefficient`. -/
def evaluate (coefficients : List R) (input : R) : Option R :=
  if coefficients.length = 0 then none
  else if coefficients.length = 1 then some (coefficients.getD 0 0)
  else some ((coefficients.reverse.drop 1).foldl
      (fun sum coefficient => sum * input + coefficient) (coefficients.getLastD 0))

/-- Arithmetic-progression sample points produced by
`successors(Some(initial.clone()), |x| Some(x + &step)).take(n)` in
`PolynomialEvaluator::new` (`src/lib.rs` line 28): `initial, initial + step,
(initial + step) + step, ...`, `n` of them. -/
def points (initial step : R) : Nat → List R
  | 0 => []
  | n + 1 => initial :: points (initial + step) step n

/-- Failure-propagating map, modelling `.map(|x| evaluate(coefficients, &x))
.collect::<Vec<_>>()` in `new`: a panic inside `evaluate` aborts the whole
construction. -/
def mapOrFail (f : R → Option R) : List R → Option (List R)
  | [] => some []
  | x :: xs => (f x).bind fun y => (mapOrFail f xs).map fun ys => y :: ys

/-- One iteration `state[j] = &state[j] - &state[j - 1]` of the inner
differencing loop in `new` (`src/lib.rs` line 34). -/
def diffStep (s : List R) (j : Nat) : List R :=
  s.set j (s.getD j 0 - s.getD (j - 1) 0)

/-- Inner loop `for j in (k..n).rev()` of `new` (`src/lib.rs` line 33), where
`n = coefficients.len()`. -/
def diffInner (n : Nat) (s : List R) (k : Nat) : List R :=
  ((List.range' k (n - k)).reverse).foldl diffStep s

/-- Outer loop `for k in 1..n` of `new` (`src/lib.rs` line 32), converting the
sampled values into a backward-difference table in place. -/
def diffTable (n : Nat) (s : List R) : List R :=
  (List.range' 1 (n - 1)).foldl (diffInner n) s

/-- Embedding of `struct PolynomialEvaluator<C>` (`src/lib.rs` lines 10-15). -/
structure PolynomialEvaluator (R : Type) where
  state : List R
  first : Bool
  input : R
  step : R
deriving DecidableEq

/-- Embedding of `PolynomialEvaluator::new` (`src/lib.rs` lines 26-43): sample
`coefficients.len()` points, evaluate the polynomial at each via Horner's
method, run the double differencing loop, and store the result together with
`first = true`, the initial input and the step. -/
def PolynomialEvaluator.new (coefficients : List R) (initial step : R) :
    Option (PolynomialEvaluator R) :=
  (mapOrFail (fun x => evaluate coefficients x)
      (points initial step coefficients.length)).map fun s =>
    { state := diffTable coefficients.length s
      first := true
      input := initial
      step := step }

/-- One iteration `state[j] = &state[j] + &state[j + 1]` of the advancing loop
in `next` (`src/lib.rs` line 57). -/
def advStep (s : List R) (j : Nat) : List R :=
  s.set j (s.getD j 0 + s.getD (j + 1) 0)

/-- Loop `for j in 0..self.state.len() - 1` of `next` (`src/lib.rs` line 56). -/
def advance (s : List R) : List R :=
  (List.range (s.length - 1)).foldl advStep s

/-- Embedding of `Iterator::next` (`src/lib.rs` lines 52-62).  On the first
call only the `first` flag is cleared; on later calls the state is advanced in
place in ascending order and the input is incremented by the step.  The
returned pair is `(input, state[0])`; an empty state makes `state[0]` panic,
modelled by `none`. -/
def PolynomialEvaluator.next (e : PolynomialEvaluator R) :
    Option ((R × R) × PolynomialEvaluator R) :=
  if e.first then
    match e.state with
    | [] => none
    | s0 :: _ => some ((e.input, s0), { e with first := false })
  else
    match advance e.state with
    | [] => none
    | s0 :: rest => some ((e.input + e.step, s0),
        { e with state := s0 :: rest, input := e.input + e.step })

/-- Iterated pulling: `pullN e k` is the `k`-th (0-based) pair produced by the
iterator together with the engine state after producing it; `none` models a
panic along the way. -/
def pullN (e : PolynomialEvaluator R) : Nat → Option ((R × R) × PolynomialEvaluator R)
  | 0 => e.next
  | k + 1 =>
    match e.next with
    | none => none
    | some (_, e1) => pullN e1 k

/-- The `k`-th (point, value) pair pulled from an engine freshly constructed by
`PolynomialEvaluator::new`. -/
def output (coefficients : List R) (initial step : R) (k : Nat) : Option (R × R) :=
  (PolynomialEvaluator.new coefficients initial step).bind fun e =>
    (pullN e k).map Prod.fst

/-- Reference polynomial value, written from the spec's words: the mathematical
power sum `Σ coefficients[i] * p^i`, independent of Horner's method. -/
def powerSum (c : List R) (x : R) : R :=
  ∑ i ∈ Finset.range c.length, c.getD i 0 * x ^ i

/-- Polynomial (in the Mathlib sense) with the given coefficient list; used
only inside proofs to reason about finite differences of sampled values. -/
noncomputable def listPoly (c : List R) : Polynomial R :=
  ∑ i ∈ Finset.range c.length, Polynomial.C (c.getD i 0) * Polynomial.X ^ i

/-- Invariant tying an engine state list to the difference table of the sample
function `G` anchored at sample index `m`: the list has length `n` and its
`j`-th entry is the `j`-th finite difference of `G` at `m`. -/
def stateInv (n : Nat) (G : ℕ → R) (m : Nat) (s : List R) : Prop :=
  s.length = n ∧ ∀ j, j < n → s.getD j 0 = (fwdDiff 1)^[j] G m

theorem powerSum_nil (x : R) : powerSum ([] : List R) x = 0 := by
  simp [powerSum]

theorem powerSum_cons (a : R) (l : List R) (x : R) :
    powerSum (a :: l) x = a + x * powerSum l x := by
  unfold powerSum
  rw [List.length_cons, Finset.sum_range_succ']
  simp only [List.getD_cons_succ, List.getD_cons_zero, pow_zero, mul_one, pow_succ,
    ← mul_assoc, ← Finset.sum_mul]
  ring

theorem hornerFoldr (d : List R) (a x : R) :
    d.foldr (fun coefficient sum => sum * x + coefficient) a = powerSum (d ++ [a]) x := by
  induction d with
  | nil => simp [powerSum_cons, powerSum_nil]
  | cons b t ih =>
    simp only [List.foldr_cons, ih, List.cons_append, powerSum_cons]
    ring

theorem evaluate_concat (d : List R) (a x : R) :
    evaluate (d ++ [a]) x = some (powerSum (d ++ [a]) x) := by
  unfold evaluate
  have h0 : (d ++ [a]).length = d.length + 1 := by simp
  rw [h0]
  by_cases hd : d = []
  · subst hd
    simp [powerSum_cons, powerSum_nil]
  · have h1 : d.length + 1 ≠ 1 := by
      simp only [ne_eq, Nat.add_left_eq_self]
      exact fun h => hd (List.eq_nil_of_length_eq_zero h)
    rw [if_neg (Nat.succ_ne_zero _), if_neg h1]
    have hrev : (d ++ [a]).reverse = a :: d.reverse := by simp
    have hlast : (d ++ [a]).getLastD 0 = a := by simp
    rw [hrev, hlast, List.drop_one, List.tail_cons, List.foldl_reverse, hornerFoldr]

theorem evaluate_eq_powerSum (c : List R) (x : R) (hc : c ≠ []) :
    evaluate c x = some (powerSum c x) := by
  obtain ⟨d, a, rfl⟩ : ∃ d a, c = d ++ [a] :=
    ⟨c.dropLast, c.getLast hc, (List.dropLast_append_getLast hc).symm⟩
  exact evaluate_concat d a x

theorem points_length (x0 h : R) (n : Nat) : (points x0 h n).length = n := by
  induction n generalizing x0 with
  | zero => rfl
  | succ n ih => simp [points, ih]

theorem points_getElem? (x0 h : R) (n i : Nat) (hi : i < n) :
    (points x0 h n)[i]? = some (x0 + i • h) := by
  induction n generalizing x0 i with
  | zero => omega
  | succ n ih =>
    cases i with
    | zero => simp [points]
    | succ i =>
      have := ih (x0 + h) i (by omega)
      simp only [points, List.getElem?_cons_succ, this, Option.some.injEq]
      rw [succ_nsmul]
      ring

theorem mapOrFail_eq_map (f : R → Option R) (g : R → R) (l : List R)
    (h : ∀ x ∈ l, f x = some (g x)) : mapOrFail f l = some (l.map g) := by
  induction l with
  | nil => rfl
  | cons x xs ih =>
    simp only [mapOrFail, h x (List.mem_cons_self x xs),
      ih fun y hy => h y (List.mem_cons_of_mem x hy), Option.bind_some, Option.map_some',
      List.map_cons]
    rfl

theorem getD_set_self (l : List R) (i : Nat) (a : R) (h : i < l.length) :
    (l.set i a).getD i 0 = a := by
  simp [List.getD_eq_getElem?_getD, List.getElem?_set, h]

theorem getD_set_ne (l : List R) (i j : Nat) (a : R) (h : i ≠ j) :
    (l.set i a).getD j 0 = l.getD j 0 := by
  simp [List.getD_eq_getElem?_getD, List.getElem?_set, h]

theorem foldl_advStep_length (js : List Nat) (s : List R) :
    (js.foldl advStep s).length = s.length := by
  induction js generalizing s with
  | nil => rfl
  | cons j js ih => simp [List.foldl_cons, ih, advStep, List.length_set]

theorem foldl_diffStep_length (js : List Nat) (s : List R) :
    (js.foldl diffStep s).length = s.length := by
  induction js generalizing s with
  | nil => rfl
  | cons j js ih => simp [List.foldl_cons, ih, diffStep, List.length_set]

theorem advance_length (s : List R) : (advance s).length = s.length :=
  foldl_advStep_length _ s

theorem foldl_advStep_getD (s : List R) (m : Nat) (hm : m < s.length) : ∀ j,
    ((List.range m).foldl advStep s).getD j 0 =
      if j < m then s.getD j 0 + s.getD (j + 1) 0 else s.getD j 0 := by
  induction m with
  | zero => simp
  | succ m ih =>
    intro j
    rw [List.range_succ, List.foldl_append, List.foldl_cons, List.foldl_nil]
    have hm' : m < s.length := by omega
    have hlen : ((List.range m).foldl advStep s).length = s.length :=
      foldl_advStep_length _ s
    have hself : (advStep ((List.range m).foldl advStep s) m).getD m 0 =
        ((List.range m).foldl advStep s).getD m 0 +
          ((List.range m).foldl advStep s).getD (m + 1) 0 :=
      getD_set_self _ _ _ (by omega)
    have hne : ∀ i, m ≠ i → (advStep ((List.range m).foldl advStep s) m).getD i 0 =
        ((List.range m).foldl advStep s).getD i 0 := fun i hi =>
      getD_set_ne _ _ _ _ hi
    rcases Nat.lt_trichotomy j m with hj | hj | hj
    · rw [hne j (by omega), ih hm' j, if_pos hj, if_pos (by omega)]
    · subst hj
      rw [hself, ih hm' j, ih hm' (j + 1), if_neg (by omega), if_neg (by omega),
        if_pos (by omega)]
    · rw [hne j (by omega), ih hm' j, if_neg (by omega), if_neg (by omega)]

theorem advance_getD (s : List R) (hs : s ≠ []) (j : Nat) :
    (advance s).getD j 0 =
      if j < s.length - 1 then s.getD j 0 + s.getD (j + 1) 0 else s.getD j 0 :=
  foldl_advStep_getD s (s.length - 1)
    (by have := List.length_pos.mpr hs; omega) j

theorem foldl_diffStep_getD (m k : Nat) (s : List R) (hn : k + m ≤ s.length) (j : Nat) :
    (((List.range' k m).reverse).foldl diffStep s).getD j 0 =
      if k ≤ j ∧ j < k + m then s.getD j 0 - s.getD (j - 1) 0 else s.getD j 0 := by
  induction m generalizing s with
  | zero => simp only [List.range', List.reverse_nil, List.foldl_nil]; rw [if_neg (by omega)]
  | succ m ih =>
    have hcat : List.range' k (m + 1) = List.range' k m ++ [k + m] := by
      rw [List.range'_concat]; simp
    rw [hcat, List.reverse_append, List.reverse_singleton, List.singleton_append,
      List.foldl_cons]
    have hset : (diffStep s (k + m)).length = s.length := by
      unfold diffStep; rw [List.length_set]
    rw [ih (diffStep s (k + m)) (by omega)]
    have hself : (diffStep s (k + m)).getD (k + m) 0 = s.getD (k + m) 0 - s.getD (k + m - 1) 0 :=
      getD_set_self _ _ _ (by omega)
    have hne : ∀ i, i ≠ k + m → (diffStep s (k + m)).getD i 0 = s.getD i 0 := fun i hi =>
      getD_set_ne _ _ _ _ (by omega)
    rcases Nat.lt_trichotomy j (k + m) with hj | hj | hj
    · by_cases hkj : k ≤ j
      · rw [if_pos (by omega), if_pos (by omega), hne j (by omega), hne (j - 1) (by omega)]
      · rw [if_neg (by omega), if_neg (by omega), hne j (by omega)]
    · subst hj
      rw [if_neg (by omega), if_pos (by omega), hself]
    · rw [if_neg (by omega), if_neg (by omega), hne j (by omega)]

theorem diffInner_getD (n : Nat) (s : List R) (k : Nat) (hn : n ≤ s.length) (hk : k ≤ n)
    (j : Nat) :
    (diffInner n s k).getD j 0 =
      if k ≤ j ∧ j < n then s.getD j 0 - s.getD (j - 1) 0 else s.getD j 0 := by
  have := foldl_diffStep_getD (n - k) k s (by omega) j
  rw [Nat.add_sub_cancel' hk] at this
  exact this

theorem diffInner_length (n : Nat) (s : List R) (k : Nat) :
    (diffInner n s k).length = s.length :=
  foldl_diffStep_length _ s

theorem foldl_diffInner_length (js : List Nat) (n : Nat) (s : List R) :
    (js.foldl (diffInner n) s).length = s.length := by
  induction js generalizing s with
  | nil => rfl
  | cons j js ih => rw [List.foldl_cons, ih, diffInner_length]

theorem fwdDiff_one_apply (F : ℕ → R) (y : ℕ) : fwdDiff 1 F y = F (y + 1) - F y := rfl

theorem fwdDiff_iter_succ_eval (F : ℕ → R) (j m : ℕ) :
    (fwdDiff 1)^[j] F (m + 1) = (fwdDiff 1)^[j] F m + (fwdDiff 1)^[j + 1] F m := by
  rw [Function.iterate_succ_apply', fwdDiff_one_apply]
  ring

theorem foldl_diffInner_getD (n : Nat) (s : List R) (hs : s.length = n) (K : Nat)
    (hK : K < n) : ∀ j, j < n →
    ((List.range' 1 K).foldl (diffInner n) s).getD j 0 =
      (fwdDiff 1)^[min j K] (fun i => s.getD i 0) (j - min j K) := by
  induction K with
  | zero =>
    intro j hj
    simp
  | succ K ih =>
    intro j hj
    have hcat : List.range' 1 (K + 1) = List.range' 1 K ++ [K + 1] := by
      rw [List.range'_concat]; simp [Nat.add_comm]
    rw [hcat, List.foldl_append, List.foldl_cons, List.foldl_nil]
    have hlenT : ((List.range' 1 K).foldl (diffInner n) s).length = n := by
      rw [foldl_diffInner_length, hs]
    rw [diffInner_getD n _ (K + 1) (by omega) (by omega) j]
    by_cases hKj : K + 1 ≤ j
    · rw [if_pos (by omega), ih (by omega) j hj, ih (by omega) (j - 1) (by omega)]
      have h1 : min j K = K := by omega
      have h2 : min (j - 1) K = K := by omega
      have h3 : min j (K + 1) = K + 1 := by omega
      rw [h1, h2, h3, Function.iterate_succ_apply', fwdDiff_one_apply]
      have h4 : j - (K + 1) + 1 = j - K := by omega
      have h5 : j - 1 - K = j - (K + 1) := by omega
      rw [h4, h5]
    · rw [if_neg (by omega), ih (by omega) j hj]
      have h1 : min j K = j := by omega
      have h2 : min j (K + 1) = j := by omega
      rw [h1, h2]

theorem diffTable_getD (n : Nat) (s : List R) (hs : s.length = n) (hn : 1 ≤ n) (j : Nat)
    (hj : j < n) :
    (diffTable n s).getD j 0 = (fwdDiff 1)^[j] (fun i => s.getD i 0) 0 := by
  have := foldl_diffInner_getD n s hs (n - 1) (by omega) j hj
  unfold diffTable
  rw [this]
  have h1 : min j (n - 1) = j := by omega
  rw [h1, Nat.sub_self]

theorem diffTable_length (n : Nat) (s : List R) : (diffTable n s).length = s.length :=
  foldl_diffInner_length _ n s

theorem fwdDiff_iter_congr (t : ℕ) (f g : ℕ → R) : ∀ y, (∀ i, i ≤ t → f (y + i) = g (y + i)) →
    (fwdDiff 1)^[t] f y = (fwdDiff 1)^[t] g y := by
  induction t generalizing f g with
  | zero =>
    intro y h
    simpa using h 0 (by omega)
  | succ t ih =>
    intro y h
    rw [Function.iterate_succ_apply, Function.iterate_succ_apply]
    refine ih (fwdDiff 1 f) (fwdDiff 1 g) y fun i hi => ?_
    rw [fwdDiff_one_apply, fwdDiff_one_apply]
    have h1 := h i (by omega)
    have h2 := h (i + 1) (by omega)
    rw [← Nat.add_assoc] at h2
    rw [h1, h2]

theorem hasseDeriv_natDegree_eq_C (p : Polynomial R) :
    Polynomial.hasseDeriv p.natDegree p = Polynomial.C p.leadingCoeff := by
  ext n
  rw [Polynomial.hasseDeriv_coeff, Polynomial.coeff_C]
  cases n with
  | zero =>
    rw [if_pos rfl, Nat.zero_add, Nat.choose_self, Nat.cast_one, one_mul,
      Polynomial.coeff_natDegree]
  | succ n =>
    rw [if_neg (Nat.succ_ne_zero n)]
    rw [Polynomial.coeff_eq_zero_of_natDegree_lt (by omega), mul_zero]

theorem taylor_leadingCoeff (p : Polynomial R) (h : R) :
    (Polynomial.taylor h p).leadingCoeff = p.leadingCoeff := by
  unfold Polynomial.leadingCoeff
  rw [Polynomial.natDegree_taylor, Polynomial.taylor_coeff, hasseDeriv_natDegree_eq_C,
    Polynomial.eval_C]
  rfl

theorem natDegree_taylor_sub_lt (p : Polynomial R) (h : R) (hp : 0 < p.natDegree) :
    (Polynomial.taylor h p - p).natDegree < p.natDegree := by
  have hp0 : p ≠ 0 := by
    intro h0
    rw [h0, Polynomial.natDegree_zero] at hp
    omega
  have ht0 : Polynomial.taylor h p ≠ 0 := by
    intro h0
    have := Polynomial.natDegree_taylor p h
    rw [h0, Polynomial.natDegree_zero] at this
    omega
  have hdeg : (Polynomial.taylor h p).degree = p.degree := by
    rw [Polynomial.degree_eq_natDegree ht0, Polynomial.degree_eq_natDegree hp0,
      Polynomial.natDegree_taylor]
  have hlt := Polynomial.degree_sub_lt hdeg ht0 (taylor_leadingCoeff p h)
  by_cases hq : Polynomial.taylor h p - p = 0
  · rw [hq, Polynomial.natDegree_zero]
    omega
  · rw [hdeg, Polynomial.degree_eq_natDegree hp0] at hlt
    exact (Polynomial.natDegree_lt_iff_degree_lt hq).mpr hlt

theorem fwdDiff_sample (p : Polynomial R) (x0 h : R) :
    fwdDiff 1 (fun i : ℕ => p.eval (x0 + i • h)) =
      fun i : ℕ => (Polynomial.taylor h p - p).eval (x0 + i • h) := by
  funext i
  rw [fwdDiff_one_apply, Polynomial.eval_sub, Polynomial.taylor_eval]
  have harg : x0 + i • h + h = x0 + (i + 1) • h := by
    rw [succ_nsmul]; ring
  rw [harg]

theorem fwdDiff_zero_fun : fwdDiff (1 : ℕ) (fun _ => (0 : R)) = fun _ => (0 : R) := by
  funext i
  rw [fwdDiff_one_apply, sub_zero]

theorem fwdDiff_iter_sample_eq_zero (N : ℕ) (p : Polynomial R) (x0 h : R)
    (hN : p.natDegree < N) :
    (fwdDiff 1)^[N] (fun i : ℕ => p.eval (x0 + i • h)) = fun _ => 0 := by
  induction N generalizing p with
  | zero => omega
  | succ N ih =>
    rw [Function.iterate_succ_apply, fwdDiff_sample]
    by_cases hp : p.natDegree = 0
    · have hC : Polynomial.taylor h p - p = 0 := by
        conv_lhs => rw [Polynomial.eq_C_of_natDegree_eq_zero hp]
        rw [Polynomial.taylor_C, Polynomial.eq_C_of_natDegree_eq_zero hp, sub_self]
      have hz : (fun i : ℕ => (Polynomial.taylor h p - p).eval (x0 + i • h)) =
          fun _ : ℕ => (0 : R) := by
        funext i
        rw [hC, Polynomial.eval_zero]
      rw [hz]
      exact Function.iterate_fixed fwdDiff_zero_fun N
    · exact ih _ (by
        have := natDegree_taylor_sub_lt p h (Nat.pos_of_ne_zero hp)
        omega)

theorem listPoly_eval (c : List R) (x : R) : (listPoly c).eval x = powerSum c x := by
  unfold listPoly powerSum
  rw [Polynomial.eval_finset_sum]
  simp

theorem listPoly_natDegree_lt (c : List R) (hc : c ≠ []) :
    (listPoly c).natDegree < c.length := by
  have hlen : 0 < c.length := List.length_pos.mpr hc
  have hle : (listPoly c).natDegree ≤ c.length - 1 := by
    refine Polynomial.natDegree_sum_le_of_forall_le _ _ fun i hi => ?_
    refine (Polynomial.natDegree_C_mul_le _ _).trans
      ((Polynomial.natDegree_X_pow_le _).trans ?_)
    have := Finset.mem_range.mp hi
    omega
  omega

theorem fwdDiff_iter_powerSum_eq_zero (c : List R) (hc : c ≠ []) (x0 h : R) :
    (fwdDiff 1)^[c.length] (fun i : ℕ => powerSum c (x0 + i • h)) = fun _ => 0 := by
  have hfun : (fun i : ℕ => powerSum c (x0 + i • h)) =
      fun i : ℕ => (listPoly c).eval (x0 + i • h) := by
    funext i
    rw [listPoly_eval]
  rw [hfun]
  exact fwdDiff_iter_sample_eq_zero c.length (listPoly c) x0 h (listPoly_natDegree_lt c hc)

theorem next_true (e : PolynomialEvaluator R) (hf : e.first = true) (hs : e.state ≠ []) :
    e.next = some ((e.input, e.state.getD 0 0), { e with first := false }) := by
  obtain ⟨st, fi, inp, ste⟩ := e
  obtain ⟨a, t, rfl⟩ := List.exists_cons_of_ne_nil hs
  simp only at hf
  subst hf
  simp [PolynomialEvaluator.next]

theorem next_false (e : PolynomialEvaluator R) (hf : e.first = false) (hs : e.state ≠ []) :
    e.next = some ((e.input + e.step, (advance e.state).getD 0 0),
      { e with state := advance e.state, input := e.input + e.step }) := by
  obtain ⟨st, fi, inp, ste⟩ := e
  simp only at hf
  subst hf
  have hadv : advance st ≠ [] := by
    intro h0
    have := advance_length st
    rw [h0] at this
    exact hs (List.eq_nil_of_length_eq_zero this.symm)
  obtain ⟨a, t, hat⟩ := List.exists_cons_of_ne_nil hadv
  simp only [PolynomialEvaluator.next, Bool.false_eq_true, if_false]
  rw [hat]
  simp [hat]

theorem advance_stateInv (n : Nat) (G : ℕ → R) (m : Nat) (s : List R) (hn : 1 ≤ n)
    (hd : (fwdDiff 1)^[n] G = fun _ => 0) (hs : stateInv n G m s) :
    stateInv n G (m + 1) (advance s) := by
  obtain ⟨hlen, hget⟩ := hs
  have hne : s ≠ [] := by
    intro h0
    rw [h0] at hlen
    simp at hlen
    omega
  refine ⟨by rw [advance_length, hlen], fun j hj => ?_⟩
  rw [advance_getD s hne j, hlen]
  by_cases hj1 : j < n - 1
  · rw [if_pos hj1, hget j hj, hget (j + 1) (by omega), fwdDiff_iter_succ_eval]
  · rw [if_neg hj1, hget j hj, fwdDiff_iter_succ_eval]
    have hjn : j + 1 = n := by omega
    have h0 : (fwdDiff 1)^[j + 1] G m = 0 := by
      rw [hjn, hd]
    rw [h0, add_zero]

theorem new_some (c : List R) (hc : c ≠ []) (x0 h : R) :
    PolynomialEvaluator.new c x0 h = some
      { state := diffTable c.length ((points x0 h c.length).map fun x => powerSum c x)
        first := true
        input := x0
        step := h } := by
  unfold PolynomialEvaluator.new
  rw [mapOrFail_eq_map (fun x => evaluate c x) (fun x => powerSum c x) _
    fun x _ => evaluate_eq_powerSum c x hc]
  rfl

theorem samples_getD (c : List R) (x0 h : R) (n i : Nat) (hi : i < n) :
    ((points x0 h n).map fun x => powerSum c x).getD i 0 = powerSum c (x0 + i • h) := by
  rw [List.getD_eq_getElem?_getD, List.getElem?_map, points_getElem? x0 h n i hi]
  rfl

theorem new_stateInv (c : List R) (hc : c ≠ []) (x0 h : R) :
    stateInv c.length (fun i => powerSum c (x0 + i • h)) 0
      (diffTable c.length ((points x0 h c.length).map fun x => powerSum c x)) := by
  have hn : 1 ≤ c.length := List.length_pos.mpr hc
  have hlen : ((points x0 h c.length).map fun x => powerSum c x).length = c.length := by
    rw [List.length_map, points_length]
  refine ⟨by rw [diffTable_length, hlen], fun j hj => ?_⟩
  rw [diffTable_getD c.length _ hlen hn j hj]
  refine fwdDiff_iter_congr j _ _ 0 fun i hi => ?_
  rw [Nat.zero_add]
  exact samples_getD c x0 h c.length i (by omega)

theorem pullN_run (c : List R) (hc : c ≠ []) (x0 h : R) (k : Nat) : ∀ m,
    ∀ e : PolynomialEvaluator R, e.first = false → e.step = h → e.input = x0 + m • h →
    stateInv c.length (fun i => powerSum c (x0 + i • h)) m e.state →
    ∃ e1 : PolynomialEvaluator R,
      pullN e k = some ((x0 + (m + k + 1) • h, powerSum c (x0 + (m + k + 1) • h)), e1) ∧
        e1.first = false ∧ e1.step = h ∧ e1.input = x0 + (m + k + 1) • h ∧
        stateInv c.length (fun i => powerSum c (x0 + i • h)) (m + k + 1) e1.state := by
  have hn : 1 ≤ c.length := List.length_pos.mpr hc
  have hd := fwdDiff_iter_powerSum_eq_zero c hc x0 h
  induction k with
  | zero =>
    intro m e hf hstep hinp hst
    have hne : e.state ≠ [] := by
      intro h0
      have := hst.1
      rw [h0] at this
      simp at this
      omega
    have hst1 := advance_stateInv c.length _ m e.state hn hd hst
    have hval : (advance e.state).getD 0 0 = powerSum c (x0 + (m + 1) • h) :=
      hst1.2 0 (by omega)
    refine ⟨{ e with state := advance e.state, input := e.input + e.step }, ?_, ?_, ?_, ?_, ?_⟩
    · show pullN e 0 = _
      rw [show pullN e 0 = e.next from rfl, next_false e hf hne, hval, hstep, hinp]
      have harg : x0 + m • h + h = x0 + (m + 0 + 1) • h := by
        have h5 : m + 0 + 1 = m + 1 := by omega
        rw [h5, succ_nsmul]
        ring
      rw [harg]
    · exact hf
    · exact hstep
    · show e.input + e.step = _
      rw [hstep, hinp]
      have h5 : m + 0 + 1 = m + 1 := by omega
      rw [h5, succ_nsmul]
      ring
    · show stateInv _ _ _ (advance e.state)
      have : m + 0 + 1 = m + 1 := by omega
      rw [this]
      exact hst1
  | succ k ih =>
    intro m e hf hstep hinp hst
    have hne : e.state ≠ [] := by
      intro h0
      have := hst.1
      rw [h0] at this
      simp at this
      omega
    have hst1 := advance_stateInv c.length _ m e.state hn hd hst
    have hnext := next_false e hf hne
    have hrun := ih (m + 1) { e with state := advance e.state, input := e.input + e.step }
      hf hstep (by
        show e.input + e.step = x0 + (m + 1) • h
        rw [hstep, hinp, succ_nsmul, add_assoc]) hst1
    obtain ⟨e1, hp, h1, h2, h3, h4⟩ := hrun
    refine ⟨e1, ?_, h1, h2, ?_, ?_⟩
    · have hred : pullN e (k + 1) =
          pullN { e with state := advance e.state, input := e.input + e.step } k := by
        show (match e.next with
          | none => none
          | some (_, e2) => pullN e2 k) = _
        rw [hnext]
      rw [hred, hp]
      have harg : m + 1 + k + 1 = m + (k + 1) + 1 := by omega
      rw [harg]
    · rw [h3]
      have harg : m + 1 + k + 1 = m + (k + 1) + 1 := by omega
      rw [harg]
    · have harg : m + 1 + k + 1 = m + (k + 1) + 1 := by omega
      rw [harg] at h4
      exact h4

theorem output_eq (c : List R) (hc : c ≠ []) (x0 h : R) (k : Nat) :
    output c x0 h k = some (x0 + k • h, powerSum c (x0 + k • h)) := by
  have hn : 1 ≤ c.length := List.length_pos.mpr hc
  have hst0 := new_stateInv c hc x0 h
  have hne0 : (diffTable c.length ((points x0 h c.length).map fun x => powerSum c x)) ≠ [] := by
    intro h0
    have := hst0.1
    rw [h0] at this
    simp at this
    omega
  unfold output
  rw [new_some c hc x0 h, Option.some_bind]
  set e0 : PolynomialEvaluator R :=
    { state := diffTable c.length ((points x0 h c.length).map fun x => powerSum c x)
      first := true
      input := x0
      step := h } with he0
  have hnext0 : e0.next = some ((x0, e0.state.getD 0 0), { e0 with first := false }) :=
    next_true e0 rfl hne0
  have hval0 : e0.state.getD 0 0 = powerSum c (x0 + 0 • h) := hst0.2 0 (by omega)
  cases k with
  | zero =>
    rw [show pullN e0 0 = e0.next from rfl, hnext0, hval0]
    have h0 : x0 + 0 • h = x0 := by
      rw [zero_nsmul, add_zero]
    rw [h0]
    rfl
  | succ k =>
    have hred : pullN e0 (k + 1) = pullN { e0 with first := false } k := by
      show (match e0.next with
        | none => none
        | some (_, e2) => pullN e2 k) = _
      rw [hnext0]
    obtain ⟨e1, hp, -, -, -, -⟩ := pullN_run c hc x0 h k 0 { e0 with first := false }
      rfl rfl (by
        show x0 = x0 + 0 • h
        rw [zero_nsmul, add_zero]) hst0
    rw [hred, hp]
    have harg : 0 + k + 1 = k + 1 := by omega
    rw [harg]
    rfl

theorem next_none_of_nil (e : PolynomialEvaluator R) (hs : e.state = []) : e.next = none := by
  obtain ⟨st, fi, inp, ste⟩ := e
  simp only at hs
  subst hs
  cases fi <;> rfl

/-- C1: for every non-empty coefficient sequence, initial point `x0`, step `h`
and index `k`, the `k`-th pair pulled from an engine constructed by
`PolynomialEvaluator::new(coefficients, x0, h)` is `(x, y)` with
`x = x0 + k * h` and `y = evaluate(coefficients, x)`: the difference-table
engine refines naive per-point Horner evaluation along the arithmetic
progression. -/
theorem pulled_pairs_match_naive_horner (c : List R) (x0 h : R) (k : Nat) (hc : c ≠ []) :
    output c x0 h k = (evaluate c (x0 + k • h)).map fun y => (x0 + k • h, y) := by
  rw [output_eq c hc x0 h k, evaluate_eq_powerSum c _ hc, Option.map_some']

theorem pulled_pairs_match_naive_horner_witness :
    output ([1, 2, 3] : List ℤ) 7 5 3 = some (22, 1497) := by
  rw [pulled_pairs_match_naive_horner ([1, 2, 3] : List ℤ) 7 5 3 (by decide)]
  decide

/-- C2: for every non-empty coefficient sequence and every point, `evaluate`
(Horner's method) returns the reference power sum `Σ coefficients[i] * p^i`,
defined independently of Horner's method. -/
theorem evaluate_matches_power_sum (c : List R) (x : R) (hc : c ≠ []) :
    evaluate c x = some (powerSum c x) :=
  evaluate_eq_powerSum c x hc

theorem evaluate_matches_power_sum_witness :
    evaluate ([1, 2, 3] : List ℤ) 7 = some 162 := by
  rw [evaluate_matches_power_sum ([1, 2, 3] : List ℤ) 7 (by decide)]
  decide

/-- C3 counterexample: constructing an engine from an EMPTY coefficient slice
does not fail at all (so in particular it does not propagate the Horner
evaluator's empty-polynomial failure): `new` returns an engine with an empty
state, refuting the claim at the concrete input `([], 0, 1)`. -/
theorem construct_empty_returns_engine :
    PolynomialEvaluator.new ([] : List ℤ) 0 1
        = some { state := [], first := true, input := 0, step := 1 } ∧
      PolynomialEvaluator.new ([] : List ℤ) 0 1 ≠ none := by
  decide

/-- C3 amended: constructing an engine with empty coefficients succeeds,
returning an engine with empty state (the Horner evaluator is never invoked,
so its empty-polynomial failure cannot propagate); instead every subsequent
pull fails, via the out-of-bounds access `state[0]`. -/
theorem construct_empty_succeeds_and_pulls_panic (x0 h : R) :
    PolynomialEvaluator.new ([] : List R) x0 h
        = some { state := [], first := true, input := x0, step := h } ∧
      ∀ k, pullN { state := ([] : List R), first := true, input := x0, step := h } k = none := by
  refine ⟨rfl, fun k => ?_⟩
  cases k <;> rfl

/-- C4: calling `evaluate` with an empty coefficient sequence fails (the
`assert!` models the "empty polynomial" error), and for non-empty coefficients
the error branch is never taken. -/
theorem evaluate_empty_polynomial_error (c : List R) (x p : R) (hc : c ≠ []) :
    evaluate ([] : List R) p = none ∧ (evaluate c x).isSome = true := by
  refine ⟨rfl, ?_⟩
  rw [evaluate_eq_powerSum c x hc]
  rfl

theorem evaluate_empty_polynomial_error_witness :
    evaluate ([] : List ℤ) 3 = none ∧ (evaluate ([5] : List ℤ) 2).isSome = true :=
  evaluate_empty_polynomial_error ([5] : List ℤ) 2 3 (by decide)

/-- C5: immediately after construction from non-empty coefficients, the state
sequence has length `n = coefficients.length` and its `j`-th entry is the
`j`-th finite difference of the sampled sequence
`P(x0), P(x0 + h), ..., P(x0 + (n-1)h)` (anchored at the first sample, i.e.
the `j`-th backward difference of the samples); in particular entry `0` is
`P(x0)`, untouched by the differencing loop. -/
theorem construction_state_is_difference_table (c : List R) (x0 h : R) (hc : c ≠ []) :
    ∃ e : PolynomialEvaluator R, PolynomialEvaluator.new c x0 h = some e ∧
      e.state.length = c.length ∧
      (∀ j, j < c.length →
        e.state.getD j 0 = (fwdDiff 1)^[j] (fun i : ℕ => powerSum c (x0 + i • h)) 0) ∧
      e.state.getD 0 0 = powerSum c x0 := by
  have hst := new_stateInv c hc x0 h
  refine ⟨_, new_some c hc x0 h, hst.1, hst.2, ?_⟩
  have h0 := hst.2 0 (List.length_pos.mpr hc)
  rw [h0, Function.iterate_zero]
  show powerSum c (x0 + 0 • h) = powerSum c x0
  rw [zero_nsmul, add_zero]

theorem construction_state_is_difference_table_witness :
    ∃ e : PolynomialEvaluator ℤ, PolynomialEvaluator.new ([1, 2, 3] : List ℤ) 0 1 = some e ∧
      e.state.length = ([1, 2, 3] : List ℤ).length ∧
      (∀ j, j < ([1, 2, 3] : List ℤ).length →
        e.state.getD j 0 =
          (fwdDiff 1)^[j] (fun i : ℕ => powerSum ([1, 2, 3] : List ℤ) (0 + i • 1)) 0) ∧
      e.state.getD 0 0 = powerSum ([1, 2, 3] : List ℤ) 0 :=
  construction_state_is_difference_table ([1, 2, 3] : List ℤ) 0 1 (by decide)

/-- C6: for every engine with non-empty state (as produced by construction from
non-empty coefficients): the first pull returns `(input, state[0])` with state
and input unchanged, only the not-yet-advanced marker cleared; every subsequent
pull updates the state in place ascending, using for each `j` the still-old
value of `state[j + 1]`, then adds the step to the input and returns
`(input, state[0])`; and every pull produces a pair (the sequence never
ends). -/
theorem pull_behaviour (e : PolynomialEvaluator R) (hs : e.state ≠ []) :
    (e.first = true →
      e.next = some ((e.input, e.state.getD 0 0), { e with first := false })) ∧
    (e.first = false →
      e.next = some ((e.input + e.step, (advance e.state).getD 0 0),
          { e with state := advance e.state, input := e.input + e.step }) ∧
        (advance e.state).length = e.state.length ∧
        ∀ j, j + 1 < e.state.length →
          (advance e.state).getD j 0 = e.state.getD j 0 + e.state.getD (j + 1) 0) ∧
    (e.next).isSome = true := by
  refine ⟨fun hb => next_true e hb hs, fun hb => ?_, ?_⟩
  · refine ⟨next_false e hb hs, advance_length e.state, fun j hj => ?_⟩
    rw [advance_getD e.state hs j, if_pos (by omega)]
  · cases hb : e.first
    · rw [next_false e hb hs]
      rfl
    · rw [next_true e hb hs]
      rfl

theorem pull_behaviour_witness :
    (({ state := [3, 4], first := false, input := 2, step := 5 } :
        PolynomialEvaluator ℤ).first = true →
      ({ state := [3, 4], first := false, input := 2, step := 5 } :
          PolynomialEvaluator ℤ).next =
        some ((({ state := [3, 4], first := false, input := 2, step := 5 } :
            PolynomialEvaluator ℤ).input,
          ({ state := [3, 4], first := false, input := 2, step := 5 } :
            PolynomialEvaluator ℤ).state.getD 0 0),
          { ({ state := [3, 4], first := false, input := 2, step := 5 } :
              PolynomialEvaluator ℤ) with first := false })) ∧
    (({ state := [3, 4], first := false, input := 2, step := 5 } :
        PolynomialEvaluator ℤ).first = false →
      ({ state := [3, 4], first := false, input := 2, step := 5 } :
          PolynomialEvaluator ℤ).next =
        some ((({ state := [3, 4], first := false, input := 2, step := 5 } :
              PolynomialEvaluator ℤ).input +
            ({ state := [3, 4], first := false, input := 2, step := 5 } :
              PolynomialEvaluator ℤ).step,
          (advance ({ state := [3, 4], first := false, input := 2, step := 5 } :
              PolynomialEvaluator ℤ).state).getD 0 0),
          { ({ state := [3, 4], first := false, input := 2, step := 5 } :
              PolynomialEvaluator ℤ) with
            state := advance ({ state := [3, 4], first := false, input := 2, step := 5 } :
                PolynomialEvaluator ℤ).state
            input := ({ state := [3, 4], first := false, input := 2, step := 5 } :
                PolynomialEvaluator ℤ).input +
              ({ state := [3, 4], first := false, input := 2, step := 5 } :
                PolynomialEvaluator ℤ).step }) ∧
        (advance ({ state := [3, 4], first := false, input := 2, step := 5 } :
            PolynomialEvaluator ℤ).state).length =
          ({ state := [3, 4], first := false, input := 2, step := 5 } :
            PolynomialEvaluator ℤ).state.length ∧
        ∀ j, j + 1 < ({ state := [3, 4], first := false, input := 2, step := 5 } :
            PolynomialEvaluator ℤ).state.length →
          (advance ({ state := [3, 4], first := false, input := 2, step := 5 } :
              PolynomialEvaluator ℤ).state).getD j 0 =
            ({ state := [3, 4], first := false, input := 2, step := 5 } :
              PolynomialEvaluator ℤ).state.getD j 0 +
            ({ state := [3, 4], first := false, input := 2, step := 5 } :
              PolynomialEvaluator ℤ).state.getD (j + 1) 0) ∧
    (({ state := [3, 4], first := false, input := 2, step := 5 } :
        PolynomialEvaluator ℤ).next).isSome = true :=
  pull_behaviour ({ state := [3, 4], first := false, input := 2, step := 5 } :
    PolynomialEvaluator ℤ) (by decide)

/-- C7: for a degree-0 polynomial, a single coefficient `c0`, every pulled
value equals `c0`, regardless of the initial point, the step and the index. -/
theorem degree_zero_every_value_is_constant (c0 x0 h : R) (k : Nat) :
    (output [c0] x0 h k).map Prod.snd = some c0 := by
  rw [output_eq [c0] (by simp) x0 h k, Option.map_some']
  show some (powerSum [c0] (x0 + k • h)) = some c0
  rw [powerSum_cons, powerSum_nil, mul_zero, add_zero]

/-- C8 counterexample: with step `0` the engine returns the SAME pair on two
distinct pulls of the same live engine (pull 0 and pull 1 both yield `(0, 1)`
for the polynomial `[1]` with `x0 = 0`, `h = 0`), refuting the claim that two
distinct pulls never return a pair equal to an earlier one. -/
theorem zero_step_repeats_pairs :
    output ([1] : List ℤ) 0 0 0 = output ([1] : List ℤ) 0 0 1 ∧
      output ([1] : List ℤ) 0 0 0 = some (0, 1) := by
  decide

/-- C8 amended: pulling is deterministic, so two engines constructed from the
same `(coefficients, initial, step)` produce identical pull sequences; and
provided the step is nonzero (over the integers), two distinct pulls on the
same live engine never return equal pairs, because the x-coordinates
`x0 + k * h` are then pairwise distinct.  The original claim fails when the
step is zero. -/
theorem fresh_runs_agree_and_nonzero_step_never_repeats (c : List ℤ) (x0 h : ℤ)
    (k j : Nat) (hc : c ≠ []) (hh : h ≠ 0) (hkj : k ≠ j) :
    (∀ e1 e2 : PolynomialEvaluator ℤ, PolynomialEvaluator.new c x0 h = some e1 →
      PolynomialEvaluator.new c x0 h = some e2 → pullN e1 k = pullN e2 k) ∧
      output c x0 h k ≠ output c x0 h j := by
  constructor
  · intro e1 e2 h1 h2
    cases Option.some.inj (h1.symm.trans h2)
    rfl
  · intro heq
    rw [output_eq c hc x0 h k, output_eq c hc x0 h j] at heq
    have hx : x0 + k • h = x0 + j • h := congrArg Prod.fst (Option.some.inj heq)
    have hsm : (k : ℤ) * h = (j : ℤ) * h := by
      have h2 : k • h = j • h := add_left_cancel hx
      simpa [nsmul_eq_mul] using h2
    have hcast : (k : ℤ) = (j : ℤ) := mul_right_cancel₀ hh hsm
    exact hkj (by exact_mod_cast hcast)

theorem fresh_runs_agree_and_nonzero_step_never_repeats_witness :
    (∀ e1 e2 : PolynomialEvaluator ℤ, PolynomialEvaluator.new ([1] : List ℤ) 0 1 = some e1 →
      PolynomialEvaluator.new ([1] : List ℤ) 0 1 = some e2 → pullN e1 0 = pullN e2 0) ∧
      output ([1] : List ℤ) 0 1 0 ≠ output ([1] : List ℤ) 0 1 1 :=
  fresh_runs_agree_and_nonzero_step_never_repeats ([1] : List ℤ) 0 1 0 1
    (by decide) (by decide) (by decide)

/-- C9 counterexample: the first pull does not mutate only the state sequence
and the current input: it also mutates the `first` marker (from `true` to
`false`), as shown on a concrete engine. -/
theorem first_pull_clears_marker :
    PolynomialEvaluator.next { state := ([1] : List ℤ), first := true, input := 0, step := 1 }
        = some ((0, 1), { state := [1], first := false, input := 0, step := 1 }) ∧
      ({ state := ([1] : List ℤ), first := false, input := 0, step := 1 } :
          PolynomialEvaluator ℤ).first ≠
        ({ state := ([1] : List ℤ), first := true, input := 0, step := 1 } :
          PolynomialEvaluator ℤ).first := by
  decide

/-- C9 amended: each pull mutates only the state sequence, the current input
and (on the first pull) the not-yet-advanced marker; the step field is never
modified by a pull, so it is immutable for the engine's lifetime, and a pull
has no other observable effect. -/
theorem pull_never_modifies_step (e : PolynomialEvaluator R) (p : R × R)
    (e1 : PolynomialEvaluator R) (hn : e.next = some (p, e1)) : e1.step = e.step := by
  by_cases hs : e.state = []
  · rw [next_none_of_nil e hs] at hn
    exact absurd hn (by simp)
  · cases hb : e.first
    · rw [next_false e hb hs] at hn
      exact (congrArg (fun q => q.2.step) (Option.some.inj hn)).symm
    · rw [next_true e hb hs] at hn
      exact (congrArg (fun q => q.2.step) (Option.some.inj hn)).symm

theorem pull_never_modifies_step_witness :
    ({ state := ([1] : List ℤ), first := false, input := 0, step := 1 } :
        PolynomialEvaluator ℤ).step =
      ({ state := ([1] : List ℤ), first := true, input := 0, step := 1 } :
        PolynomialEvaluator ℤ).step :=
  pull_never_modifies_step
    { state := ([1] : List ℤ), first := true, input := 0, step := 1 } (0, 1)
    { state := ([1] : List ℤ), first := false, input := 0, step := 1 } (by decide)

/-- C10: constructing from an empty coefficient slice returns normally with an
empty state vector (zero points are sampled, so the Horner evaluator is never
invoked), and it is the first subsequent call to `next` that panics, from the
out-of-bounds access `state[0]` on the empty state. -/
theorem new_empty_coefficients_defers_panic (x0 h : R) :
    PolynomialEvaluator.new ([] : List R) x0 h
        = some { state := [], first := true, input := x0, step := h } ∧
      PolynomialEvaluator.next
        { state := ([] : List R), first := true, input := x0, step := h } = none :=
  ⟨rfl, rfl⟩
